import Mathlib

/-!
Verification of the Perses variable dependency resolution and build-order
engine: the reference extractor, the dependency-graph construction
(`buildVariableDependencies`) and the level-synchronous build order
(`Graph.buildOrder`), modelled from the specification and checked against
the repository's test suite
(`src/ui/dashboards/src/components/PanelDrawer/PanelEditorForm.tsx`,
which carries the Go test file for `dashboard` build ordering).
-/

namespace Perses

/-- Modelled from the spec: a variable's specification payload is an opaque
heterogeneous tree of "string | number | sequence | mapping" primitives
(spec section 9: payload-agnostic scanning).  The concrete implementation
(`buildVariableDependencies` and its payload walker) is not under `src/`;
only its tests are, so the payload type follows the spec's words. -/
inductive JsonValue where
  | str (s : String)
  | num (n : Int)
  | boolean (b : Bool)
  | null
  | arr (items : List JsonValue)
  | obj (fields : List (String × JsonValue))

/-- A character of an identifier token: `[A-Za-z0-9_]` (the capture is `\w+`;
the leading-character restriction is enforced afterwards by the numeric
filter, spec section 4.1). -/
def isWordChar (c : Char) : Bool :=
  c.isAlpha || c.isDigit || c = '_'

/-- Modelled from the spec: scan one string for sigil-prefixed identifier
tokens, both the bare form `$name` and the delimited form `$\x7bname\x7d`,
greedy longest-match, overlapping candidates not re-scanned (spec section
4.1).  The `fuel` argument bounds the loop; the entry point supplies the
string length, which is always sufficient since every step consumes at
least one character. -/
def scanAux : Nat → List Char → List String
  | 0, _ => []
  | _ + 1, [] => []
  | fuel + 1, c :: rest =>
    if c = '$' then
      match rest with
      | '{' :: rest2 =>
        let tok := rest2.takeWhile isWordChar
        match rest2.dropWhile isWordChar with
        | '}' :: rest3 =>
          if tok = [] then scanAux fuel rest2
          else tok.asString :: scanAux fuel rest3
        | _ => scanAux fuel rest2
      | _ =>
        let tok := rest.takeWhile isWordChar
        if tok = [] then scanAux fuel rest
        else tok.asString :: scanAux fuel (rest.dropWhile isWordChar)
    else scanAux fuel rest

/-- All raw sigil tokens of one string, in scan order, duplicates kept. -/
def scanString (s : String) : List String :=
  scanAux s.data.length s.data

mutual

/-- All string leaves of a payload, recursively through sequences and
mappings (spec section 4.1: generic recursive visitor). -/
def collectStrings : JsonValue → List String
  | .str s => [s]
  | .num _ => []
  | .boolean _ => []
  | .null => []
  | .arr items => collectStringsArr items
  | .obj fields => collectStringsObj fields

/-- String leaves of a sequence of payloads. -/
def collectStringsArr : List JsonValue → List String
  | [] => []
  | v :: vs => collectStrings v ++ collectStringsArr vs

/-- String leaves of a mapping's values. -/
def collectStringsObj : List (String × JsonValue) → List String
  | [] => []
  | (_, v) :: fs => collectStrings v ++ collectStringsObj fs

end

/-- A captured identifier that consists solely of digits (the numeric
filter's test, spec section 4.1). -/
def isAllDigits (s : String) : Bool :=
  s.data.all Char.isDigit

/-- Keep the first occurrence of every element, dropping later duplicates
and anything in `seen`. -/
def dedupAux (seen : List String) : List String → List String
  | [] => []
  | x :: xs =>
    if seen.contains x then dedupAux seen xs
    else x :: dedupAux (x :: seen) xs

/-- First-seen deduplication. -/
def dedupFirst (l : List String) : List String :=
  dedupAux [] l

/-- Modelled from the spec: `extractReferences(spec) -> set<string>` — the
set of distinct candidate reference names found in all string fields of the
payload, with purely numeric captures discarded (spec sections 4.1 and 6).
The implementation is not under `src/`; only its tests are. -/
def extractReferences (p : JsonValue) : List String :=
  dedupFirst (((collectStrings p).flatMap scanString).filter fun t => !(isAllDigits t))

-- Conformance checks against the extractor behaviour pinned by
-- `TestBuildVariableDependencies`.
example : collectStrings (.arr [.str "a", .obj [("k", .str "b")]]) = ["a", "b"] := rfl
example : scanString "sum by($doe, $bar) (rate($foo) and $bar)" = ["doe", "bar", "foo", "bar"] := rfl
example : extractReferences (.str "sum by($doe, $bar) (rate($foo) and $bar)") = ["doe", "bar", "foo"] := rfl
example : extractReferences (.str "$1 $\x7b42\x7d") = [] := rfl
example : extractReferences (.str "$\x7bfoo\x7d and $bar") = ["foo", "bar"] := by decide

/-- The two declaration kinds the resolver distinguishes (spec section 3):
constant-valued declarations (`KindText` in the tests) and computed ones
whose value is derived via a plugin (`KindList` in the tests). -/
inductive VariableKind where
  | constant
  | computed
deriving DecidableEq

/-- Modelled from the spec: a variable declaration
`\x7b name, kind, spec: opaque payload \x7d` (spec section 3). -/
structure Variable where
  name : String
  kind : VariableKind
  spec : JsonValue

/-- The two validation failures of the engine (spec section 7): an
undefined reference carries the missing name and the referencing
variable's name; the circular-dependency failure is a single categorical
error with no cycle path. -/
inductive BuildError where
  | undefinedReference (missing referencedBy : String)
  | circularDependency
deriving DecidableEq

/-- The reference set a declaration contributes to the graph: computed
declarations are scanned, constant-valued ones are leaves with no outgoing
edges regardless of payload (spec section 3). -/
def refsOf (v : Variable) : List String :=
  match v.kind with
  | .computed => extractReferences v.spec
  | .constant => []

/-- Modelled from the spec: the per-declaration loop of
`buildVariableDependencies` — each declaration's reference set is checked
against the declared names and recorded when non-empty (spec section 4.2;
the entry-only-when-non-empty behaviour is pinned by
`TestBuildVariableDependencies` in `src/`, where a constant variable and a
no-reference query variable both yield an empty mapping). -/
def depsLoop (declared : List String) : List Variable → Except BuildError (List (String × List String))
  | [] => .ok []
  | v :: rest =>
    match (refsOf v).find? fun r => !(declared.contains r) with
    | some r => .error (.undefinedReference r v.name)
    | none =>
      if (refsOf v).isEmpty then depsLoop declared rest
      else (fun m => (v.name, refsOf v) :: m) <$> depsLoop declared rest

/-- Modelled from the spec: derive the name→references mapping from the
ordered declaration list, failing with `UndefinedReferenceError` when a
reference has no matching declaration (spec section 4.2). -/
def buildVariableDependencies (vars : List Variable) : Except BuildError (List (String × List String)) :=
  depsLoop (vars.map fun v => v.name) vars

/-- The dependency graph: declared node names in declaration order, plus
the name→dependency-names adjacency mapping (spec sections 3 and 9). -/
structure Graph where
  nodes : List String
  deps : List (String × List String)

/-- Modelled from the spec / `TestGraph_BuildOrder`: `newGraph` packs the
declared names and the dependency mapping. -/
def newGraph (names : List String) (dependencies : List (String × List String)) : Graph :=
  ⟨names, dependencies⟩

/-- The dependency names of one node (empty when the node has no entry in
the adjacency mapping). -/
def depsOf (g : Graph) (v : String) : List String :=
  (g.deps.lookup v).getD []

/-- Modelled from the spec: the iterative fixed-point of
`graph.buildOrder` — repeatedly move every remaining node whose
dependencies are all already resolved into the next stage; a full pass
with no progress while nodes remain is the cycle signal (spec sections 4.2
and 9).  `fuel` bounds the number of passes; the entry point supplies the
node count, which is always sufficient because every successful pass
resolves at least one node. -/
def buildOrderAux (g : Graph) (fuel : Nat) (resolved remaining : List String) : Except BuildError (List (List String)) :=
  match remaining with
  | [] => .ok []
  | _ :: _ =>
    match fuel with
    | 0 => .error .circularDependency
    | fuel' + 1 =>
      let ready := remaining.filter fun u => (depsOf g u).all fun d => resolved.contains d
      if ready.isEmpty then .error .circularDependency
      else
        (fun stages => ready :: stages) <$>
          buildOrderAux g fuel' (resolved ++ ready)
            (remaining.filter fun u => !((depsOf g u).all fun d => resolved.contains d))

/-- Modelled from the spec: `buildOrder` produces the ordered stage
sequence or the categorical circular-dependency error (spec section
4.2). -/
def Graph.buildOrder (g : Graph) : Except BuildError (List (List String)) :=
  buildOrderAux g g.nodes.length [] g.nodes

/-- Modelled from the spec: the end-to-end operation
`buildOrder(variables)` — extract the dependency mapping, build the graph
over the declared names, and resolve the stage sequence (spec section
6). -/
def BuildVariableOrder (vars : List Variable) : Except BuildError (List (List String)) := do
  let m ← buildVariableDependencies vars
  (newGraph (vars.map fun v => v.name) m).buildOrder

/-- The stage index of a name: the index of the first stage containing
it. -/
def stageIndex (stages : List (List String)) (v : String) : Nat :=
  stages.findIdx fun s => s.contains v

/-- The maximum of a list of naturals (`0` for the empty list). -/
def maxNat (l : List Nat) : Nat :=
  l.foldr max 0

-- Conformance checks against the test suite in `src/`: every test case of
-- `TestGraph_BuildOrder`, `TestGraph_BuildOrderError`,
-- `TestBuildVariableDependencies(Error)` and `TestBuildOrder` that the
-- model encodes evaluates to the expected result.
example :
    (newGraph ["f", "d", "c", "b", "g", "a", "h", "e"]
      [("e", ["a", "b"]), ("a", ["c", "f", "b"]), ("h", ["b"]), ("g", ["d"]),
       ("c", ["f"]), ("b", ["f"])]).buildOrder =
    .ok [["f", "d"], ["c", "b", "g"], ["a", "h"], ["e"]] := rfl

example : (newGraph ["a", "d", "e"] []).buildOrder = .ok [["a", "d", "e"]] := rfl

example :
    (newGraph ["a", "d", "e"] [("a", ["d"]), ("d", ["e"])]).buildOrder =
    .ok [["e"], ["d"], ["a"]] := rfl

example : (newGraph ["a", "b"] [("a", ["b"]), ("b", ["a"])]).buildOrder = .error .circularDependency := rfl

example : (newGraph ["a"] [("a", ["a"])]).buildOrder = .error .circularDependency := rfl

example :
    (newGraph ["f", "d", "c", "b", "g", "a", "h", "e"]
      [("e", ["a", "b"]), ("a", ["c", "f", "b"]), ("h", ["b"]), ("g", ["d", "c"]),
       ("c", ["f"]), ("b", ["f"]), ("d", ["d"])]).buildOrder =
    .error .circularDependency := rfl

example :
    buildVariableDependencies
      [⟨"myVariable", .computed, .obj [("expr", .str "sum by($doe, $bar) (rate($foo) and $bar)")]⟩] =
    .error (.undefinedReference "doe" "myVariable") := rfl

example :
    buildVariableDependencies
      [⟨"myVariable", .computed, .obj [("expr", .str "sum by($doe) (rate($foo) and $bar)")]⟩,
       ⟨"foo", .computed, .obj [("expr", .str "test")]⟩,
       ⟨"bar", .computed, .obj [("expr", .str "vector($foo)")]⟩,
       ⟨"doe", .constant, .obj [("value", .str "myConstant")]⟩] =
    .ok [("myVariable", ["doe", "foo", "bar"]), ("bar", ["foo"])] := rfl

example :
    BuildVariableOrder
      [⟨"myVariable", .computed, .obj [("expr", .str "sum by($doe, $bar) (rate($foo) and $bar)")]⟩,
       ⟨"foo", .computed, .obj [("expr", .str "test")]⟩,
       ⟨"bar", .computed, .obj [("expr", .str "vector($foo)")]⟩,
       ⟨"doe", .constant, .obj [("value", .str "myConstant")]⟩] =
    .ok [["foo", "doe"], ["bar"], ["myVariable"]] := rfl

example : BuildVariableOrder [] = .ok [] := rfl

/-! ### The staged fixed-point, described by levels

`resolvedUpTo g n` is the set of nodes resolved after `n` passes of the
fixed-point loop: a node enters pass `n + 1` exactly when all of its
dependencies were resolved within the first `n` passes. -/

/-- The nodes resolved after `n` passes of the fixed-point loop. -/
def resolvedUpTo (g : Graph) : Nat → List String
  | 0 => []
  | n + 1 => g.nodes.filter fun v => (depsOf g v).all fun d => (resolvedUpTo g n).contains d

lemma mem_resolvedUpTo_succ {g : Graph} {v : String} {n : Nat} :
    v ∈ resolvedUpTo g (n + 1) ↔ v ∈ g.nodes ∧ ∀ d ∈ depsOf g v, d ∈ resolvedUpTo g n := by
  simp [resolvedUpTo, List.contains, List.elem_iff]

lemma resolvedUpTo_subset {g : Graph} {v : String} {n : Nat} :
    v ∈ resolvedUpTo g n → v ∈ g.nodes := by
  cases n with
  | zero => intro h; simp [resolvedUpTo] at h
  | succ n => intro h; exact (mem_resolvedUpTo_succ.mp h).1

lemma resolvedUpTo_mono_succ (g : Graph) :
    ∀ n : Nat, ∀ v ∈ resolvedUpTo g n, v ∈ resolvedUpTo g (n + 1) := by
  intro n
  induction n with
  | zero => intro v hv; simp [resolvedUpTo] at hv
  | succ n ih =>
    intro v hv
    rw [mem_resolvedUpTo_succ] at hv ⊢
    exact ⟨hv.1, fun d hd => ih d (hv.2 d hd)⟩

lemma resolvedUpTo_mono (g : Graph) {a b : Nat} (h : a ≤ b) :
    ∀ v ∈ resolvedUpTo g a, v ∈ resolvedUpTo g b := by
  induction h with
  | refl => exact fun v hv => hv
  | step _ ih => exact fun v hv => resolvedUpTo_mono_succ g _ v (ih v hv)

lemma length_filter_add_length_filter_neg (p : α → Bool) (l : List α) :
    (l.filter p).length + (l.filter fun a => !(p a)).length = l.length := by
  induction l with
  | nil => rfl
  | cons x xs ih =>
    cases hx : p x <;> simp [List.filter_cons, hx] <;> omega

/-- The heart of the development: a successful run of the fixed-point loop
produces exactly the stages of `resolvedUpTo`, stage `k` (counting from
pass `n`) being the nodes resolved at pass `n + k + 1` but not before, and
every remaining node lands in some stage. -/
lemma buildOrderAux_spec (g : Graph) :
    ∀ (fuel n : Nat) (resolved remaining : List String) (stages : List (List String)),
      buildOrderAux g fuel resolved remaining = .ok stages →
      remaining.length ≤ fuel →
      (∀ x, x ∈ resolved ↔ x ∈ resolvedUpTo g n) →
      (∀ x, x ∈ remaining ↔ x ∈ g.nodes ∧ x ∉ resolvedUpTo g n) →
      (∀ k, k < stages.length →
        ∀ v, v ∈ stages.getD k [] ↔ (v ∈ resolvedUpTo g (n + k + 1) ∧ v ∉ resolvedUpTo g (n + k))) ∧
      (∀ v ∈ remaining, ∃ k, k < stages.length ∧ v ∈ stages.getD k []) := by
  intro fuel
  induction fuel with
  | zero =>
    intro n resolved remaining stages hok hlen _ _
    have hnil : remaining = [] := List.eq_nil_of_length_eq_zero (Nat.le_zero.mp hlen)
    subst hnil
    rw [buildOrderAux] at hok
    cases hok
    refine ⟨fun k hk => by simp at hk, fun v hv => by simp at hv⟩
  | succ fuel ih =>
    intro n resolved remaining stages hok hlen hres hrem
    cases remaining with
    | nil =>
      rw [buildOrderAux] at hok
      cases hok
      refine ⟨fun k hk => by simp at hk, fun v hv => by simp at hv⟩
    | cons r0 rs =>
      rw [buildOrderAux] at hok
      set rem : List String := r0 :: rs with hremdef
      set p : String → Bool := fun u => (depsOf g u).all fun d => resolved.contains d with hp
      set ready : List String := rem.filter p with hready
      set rem' : List String := rem.filter fun u => !(p u) with hrem'
      -- characterize p via resolvedUpTo
      have hpiff : ∀ x, p x = true ↔ ∀ d ∈ depsOf g x, d ∈ resolvedUpTo g n := by
        intro x
        simp only [hp, List.all_eq_true, List.contains, List.elem_iff]
        constructor
        · intro h d hd; exact (hres d).mp (h d hd)
        · intro h d hd; exact (hres d).mpr (h d hd)
      have hmem_ready : ∀ x, x ∈ ready ↔ (x ∈ resolvedUpTo g (n + 1) ∧ x ∉ resolvedUpTo g n) := by
        intro x
        rw [hready, List.mem_filter]
        constructor
        · rintro ⟨hxrem, hpx⟩
          have hx := (hrem x).mp hxrem
          exact ⟨mem_resolvedUpTo_succ.mpr ⟨hx.1, (hpiff x).mp hpx⟩, hx.2⟩
        · rintro ⟨hx1, hx0⟩
          have hx := mem_resolvedUpTo_succ.mp hx1
          exact ⟨(hrem x).mpr ⟨hx.1, hx0⟩, (hpiff x).mpr hx.2⟩
      by_cases hre : ready.isEmpty
      · rw [if_pos hre] at hok; cases hok
      · rw [if_neg hre] at hok
        cases hrec : buildOrderAux g fuel (resolved ++ ready) rem' with
        | error e => rw [hrec] at hok; simp [Except.map] at hok
        | ok stages' =>
          rw [hrec] at hok
          simp only [Except.map_ok, Except.ok.injEq] at hok
          subst hok
          -- hypotheses for the recursive call, one pass later
          have hres' : ∀ x, x ∈ resolved ++ ready ↔ x ∈ resolvedUpTo g (n + 1) := by
            intro x
            rw [List.mem_append]
            constructor
            · rintro (hx | hx)
              · exact resolvedUpTo_mono_succ g n x ((hres x).mp hx)
              · exact ((hmem_ready x).mp hx).1
            · intro hx
              by_cases hx0 : x ∈ resolvedUpTo g n
              · exact Or.inl ((hres x).mpr hx0)
              · exact Or.inr ((hmem_ready x).mpr ⟨hx, hx0⟩)
          have hrem'' : ∀ x, x ∈ rem' ↔ x ∈ g.nodes ∧ x ∉ resolvedUpTo g (n + 1) := by
            intro x
            rw [hrem', List.mem_filter]
            constructor
            · rintro ⟨hxrem, hpx⟩
              have hx := (hrem x).mp hxrem
              refine ⟨hx.1, fun hx1 => ?_⟩
              have := mem_resolvedUpTo_succ.mp hx1
              rw [Bool.not_eq_true'] at hpx
              exact absurd ((hpiff x).mpr this.2) (by simp [hpx])
            · rintro ⟨hxn, hx1⟩
              have hx0 : x ∉ resolvedUpTo g n :=
                fun hx0 => hx1 (resolvedUpTo_mono_succ g n x hx0)
              refine ⟨(hrem x).mpr ⟨hxn, hx0⟩, ?_⟩
              rw [Bool.not_eq_true']
              rw [Bool.eq_false_iff]
              intro hpx
              exact hx1 (mem_resolvedUpTo_succ.mpr ⟨hxn, (hpiff x).mp hpx⟩)
          have hlen' : rem'.length ≤ fuel := by
            have hsplit := length_filter_add_length_filter_neg p rem
            have hrne : ready ≠ [] := by
              intro h; rw [h] at hre; exact hre rfl
            have : 1 ≤ ready.length := by
              cases hready' : ready with
              | nil => exact absurd hready' hrne
              | cons a as => simp [hready']
            rw [← hready, ← hrem'] at hsplit
            have : rem.length ≤ fuel + 1 := hlen
            omega
          obtain ⟨ih1, ih2⟩ := ih (n + 1) (resolved ++ ready) rem' stages' hrec hlen' hres' hrem''
          constructor
          · intro k hk v
            cases k with
            | zero =>
              simpa using hmem_ready v
            | succ k =>
              rw [List.getD_cons_succ]
              have hk' : k < stages'.length := by simpa using hk
              have := ih1 k hk' v
              have harith1 : n + 1 + k + 1 = n + (k + 1) + 1 := by omega
              have harith2 : n + 1 + k = n + (k + 1) := by omega
              rw [harith1, harith2] at this
              exact this
          · intro v hv
            by_cases hpv : p v = true
            · refine ⟨0, by simp, ?_⟩
              rw [List.getD_cons_zero, hready, List.mem_filter]
              exact ⟨hv, hpv⟩
            · have hv' : v ∈ rem' := by
                rw [hrem', List.mem_filter]
                exact ⟨hv, by simp [hpv]⟩
              obtain ⟨k, hk, hmem⟩ := ih2 v hv'
              exact ⟨k + 1, by simpa using hk, by simpa using hmem⟩

/-- Specialization to the `buildOrder` entry point: stage `k` holds exactly
the nodes resolved at pass `k + 1` but not at pass `k`, and every declared
node is in some stage. -/
lemma buildOrder_spec (g : Graph) (stages : List (List String))
    (hok : g.buildOrder = .ok stages) :
    (∀ k, k < stages.length →
      ∀ v, v ∈ stages.getD k [] ↔ (v ∈ resolvedUpTo g (k + 1) ∧ v ∉ resolvedUpTo g k)) ∧
    (∀ v ∈ g.nodes, ∃ k, k < stages.length ∧ v ∈ stages.getD k []) := by
  obtain ⟨h1, h2⟩ := buildOrderAux_spec g g.nodes.length 0 [] g.nodes stages hok
    (Nat.le_refl _)
    (by intro x; simp [resolvedUpTo])
    (by intro x; simp [resolvedUpTo])
  refine ⟨fun k hk v => ?_, h2⟩
  have := h1 k hk v
  simpa using this

lemma stageIndex_eq (stages : List (List String)) (k : Nat) (v : String)
    (hk : k < stages.length) (hin : v ∈ stages.getD k [])
    (hbefore : ∀ j, j < k → v ∉ stages.getD j []) :
    stageIndex stages v = k := by
  induction stages generalizing k with
  | nil => simp at hk
  | cons s ss ih =>
    cases k with
    | zero =>
      rw [List.getD_cons_zero] at hin
      have hc : s.contains v = true := by
        rw [List.contains, List.elem_iff]; exact hin
      rw [stageIndex, List.findIdx_cons, hc]
      rfl
    | succ k =>
      have h0 : v ∉ s := by
        have := hbefore 0 (Nat.succ_pos k)
        rw [List.getD_cons_zero] at this
        exact this
      have hc : s.contains v = false := by
        rw [Bool.eq_false_iff]
        intro h
        rw [List.contains, List.elem_iff] at h
        exact h0 h
      have htail : stageIndex ss v = k := by
        apply ih k (by simpa using hk) (by simpa using hin)
        intro j hj
        have := hbefore (j + 1) (by omega)
        rw [List.getD_cons_succ] at this
        exact this
      rw [stageIndex] at htail
      rw [stageIndex, List.findIdx_cons, hc]
      simpa using htail

lemma resolvedUpTo_level_unique {g : Graph} {j k : Nat} {v : String}
    (hj1 : v ∈ resolvedUpTo g (j + 1)) (hj0 : v ∉ resolvedUpTo g j)
    (hk1 : v ∈ resolvedUpTo g (k + 1)) (hk0 : v ∉ resolvedUpTo g k) : j = k := by
  rcases Nat.lt_trichotomy j k with h | h | h
  · exact absurd (resolvedUpTo_mono g (by omega) v hj1) hk0
  · exact h
  · exact absurd (resolvedUpTo_mono g (by omega) v hk1) hj0

/-- Under a successful `buildOrder`, every declared node sits in the stage
of its level: it is resolved at pass `stageIndex + 1` and not before. -/
lemma stage_level (g : Graph) (stages : List (List String))
    (hok : g.buildOrder = .ok stages) (v : String) (hv : v ∈ g.nodes) :
    stageIndex stages v < stages.length ∧
    v ∈ resolvedUpTo g (stageIndex stages v + 1) ∧
    v ∉ resolvedUpTo g (stageIndex stages v) := by
  obtain ⟨h1, h2⟩ := buildOrder_spec g stages hok
  obtain ⟨k, hk, hmem⟩ := h2 v hv
  have hkchar := (h1 k hk v).mp hmem
  have hidx : stageIndex stages v = k := by
    apply stageIndex_eq stages k v hk hmem
    intro j hj hmemj
    have hjchar := (h1 j (by omega) v).mp hmemj
    exact hkchar.2 (resolvedUpTo_mono g (by omega) v hjchar.1)
  rw [hidx]
  exact ⟨hk, hkchar⟩

/-- Under a successful `buildOrder`, every dependency of a declared node is
itself declared. -/
lemma deps_mem_nodes (g : Graph) (stages : List (List String))
    (hok : g.buildOrder = .ok stages) (v : String) (hv : v ∈ g.nodes)
    (d : String) (hd : d ∈ depsOf g v) : d ∈ g.nodes := by
  obtain ⟨_, hv1, _⟩ := stage_level g stages hok v hv
  exact resolvedUpTo_subset ((mem_resolvedUpTo_succ.mp hv1).2 d hd)

/-- Under a successful `buildOrder`, every edge drops strictly in stage
index: a dependency's stage precedes its dependent's. -/
lemma stage_edge (g : Graph) (stages : List (List String))
    (hok : g.buildOrder = .ok stages) (v : String) (hv : v ∈ g.nodes)
    (d : String) (hd : d ∈ depsOf g v) :
    stageIndex stages d < stageIndex stages v := by
  obtain ⟨_, hv1, hv0⟩ := stage_level g stages hok v hv
  have hdRi : d ∈ resolvedUpTo g (stageIndex stages v) :=
    (mem_resolvedUpTo_succ.mp hv1).2 d hd
  have hdn : d ∈ g.nodes := resolvedUpTo_subset hdRi
  obtain ⟨_, _, hd0⟩ := stage_level g stages hok d hdn
  by_contra h
  push_neg at h
  exact hd0 (resolvedUpTo_mono g h d hdRi)

/-- The fixed-point loop's only failure is the categorical
circular-dependency error. -/
lemma buildOrderAux_error (g : Graph) :
    ∀ (fuel : Nat) (resolved remaining : List String) (e : BuildError),
      buildOrderAux g fuel resolved remaining = .error e → e = .circularDependency := by
  intro fuel
  induction fuel with
  | zero =>
    intro resolved remaining e h
    cases remaining with
    | nil => rw [buildOrderAux] at h; cases h
    | cons r0 rs => rw [buildOrderAux] at h; cases h; rfl
  | succ fuel ih =>
    intro resolved remaining e h
    cases remaining with
    | nil => rw [buildOrderAux] at h; cases h
    | cons r0 rs =>
      rw [buildOrderAux] at h
      by_cases hre : ((r0 :: rs).filter fun u => (depsOf g u).all fun d => resolved.contains d).isEmpty
      · rw [if_pos hre] at h; cases h; rfl
      · rw [if_neg hre] at h
        cases hrec : buildOrderAux g fuel
            (resolved ++ (r0 :: rs).filter fun u => (depsOf g u).all fun d => resolved.contains d)
            ((r0 :: rs).filter fun u => !((depsOf g u).all fun d => resolved.contains d)) with
        | ok stages' => rw [hrec] at h; simp [Except.map] at h
        | error e' =>
          rw [hrec] at h
          simp only [Except.map_error, Except.error.injEq] at h
          subst h
          exact ih _ _ _ hrec

/-- The dependency edge relation of a graph: `a` is declared and `b` is
one of its dependencies. -/
def Edge (g : Graph) (a b : String) : Prop :=
  a ∈ g.nodes ∧ b ∈ depsOf g a

/-- A chain of edges drops strictly in stage index. -/
lemma transGen_stage_lt (g : Graph) (stages : List (List String))
    (hok : g.buildOrder = .ok stages) :
    ∀ a b, Relation.TransGen (Edge g) a b → stageIndex stages b < stageIndex stages a := by
  intro a b h
  induction h with
  | single hab => exact stage_edge g stages hok _ hab.1 _ hab.2
  | tail _ hbc ih =>
    exact Nat.lt_trans (stage_edge g stages hok _ hbc.1 _ hbc.2) ih

lemma le_maxNat {l : List Nat} {x : Nat} (h : x ∈ l) : x ≤ maxNat l := by
  induction l with
  | nil => simp at h
  | cons y ys ih =>
    rcases List.mem_cons.mp h with rfl | h'
    · exact Nat.le_max_left _ _
    · exact Nat.le_trans (ih h') (Nat.le_max_right _ _)

lemma maxNat_le {l : List Nat} {m : Nat} (h : ∀ x ∈ l, x ≤ m) : maxNat l ≤ m := by
  induction l with
  | nil => exact Nat.zero_le m
  | cons y ys ih =>
    exact Nat.max_le.mpr ⟨h y (List.mem_cons_self y ys), ih fun x hx => h x (List.mem_cons_of_mem y hx)⟩

/-- A graph with declared nodes and no dependency edges resolves in a
single pass: the one stage holds all the nodes, in declaration order. -/
lemma buildOrder_no_deps (g : Graph) (hne : g.nodes ≠ [])
    (hdeps : ∀ v ∈ g.nodes, depsOf g v = []) : g.buildOrder = .ok [g.nodes] := by
  rcases hn : g.nodes with _ | ⟨x, xs⟩
  · exact absurd hn hne
  · have hp : ∀ u ∈ x :: xs,
        ((depsOf g u).all fun d => (([] : List String)).contains d) = true := by
      intro u hu
      rw [hdeps u (by rw [hn]; exact hu)]
      rfl
    have hready : ((x :: xs).filter fun u => (depsOf g u).all fun d => (([] : List String)).contains d) = x :: xs :=
      List.filter_eq_self.mpr hp
    have hrem' : ((x :: xs).filter fun u => !((depsOf g u).all fun d => (([] : List String)).contains d)) = [] := by
      rw [List.filter_eq_nil_iff]
      intro u hu
      simp [hdeps u (by rw [hn]; exact hu)]
    rw [Graph.buildOrder, hn, List.length_cons, buildOrderAux]
    simp only [hready, hrem']
    rw [List.isEmpty_cons]
    rw [if_neg (by simp)]
    rw [buildOrderAux]
    rfl

/-- If every member of a non-empty node set has a dependency back inside
the set, following those dependencies long enough must revisit a node
(pigeonhole), producing a cycle. -/
lemma exists_cycle_of_stuck (g : Graph) (remaining : List String)
    (hsub : ∀ v ∈ remaining, v ∈ g.nodes)
    (hstuck : ∀ v ∈ remaining, ∃ d, d ∈ depsOf g v ∧ d ∈ remaining)
    (hne : remaining ≠ []) :
    ∃ v, Relation.TransGen (Edge g) v v := by
  obtain ⟨r0, hr0⟩ := List.exists_mem_of_ne_nil _ hne
  have hstuck' : ∀ v : String, ∃ d, v ∈ remaining → (d ∈ depsOf g v ∧ d ∈ remaining) := by
    intro v
    by_cases hv : v ∈ remaining
    · obtain ⟨d, h1, h2⟩ := hstuck v hv
      exact ⟨d, fun _ => ⟨h1, h2⟩⟩
    · exact ⟨v, fun h => absurd h hv⟩
  choose f hf using hstuck'
  have hseqmem : ∀ n : Nat, f^[n] r0 ∈ remaining := by
    intro n
    induction n with
    | zero => simpa using hr0
    | succ n ih =>
      rw [Function.iterate_succ_apply']
      exact (hf _ ih).2
  have hedge : ∀ n : Nat, Edge g (f^[n] r0) (f^[n + 1] r0) := by
    intro n
    rw [Function.iterate_succ_apply']
    exact ⟨hsub _ (hseqmem n), (hf _ (hseqmem n)).1⟩
  have hchain : ∀ j i : Nat, i < j →
      Relation.TransGen (Edge g) (f^[i] r0) (f^[j] r0) := by
    intro j
    induction j with
    | zero => intro i h; exact absurd h (Nat.not_lt_zero i)
    | succ j ih =>
      intro i h
      rcases Nat.lt_succ_iff_lt_or_eq.mp h with h' | h'
      · exact (ih i h').tail (hedge j)
      · subst h'
        exact Relation.TransGen.single (hedge i)
  have hcard : remaining.toFinset.card < (Finset.range (remaining.length + 1)).card := by
    rw [Finset.card_range]
    exact Nat.lt_succ_of_le (List.toFinset_card_le remaining)
  obtain ⟨i, _, j, _, hij, heq⟩ :=
    Finset.exists_ne_map_eq_of_card_lt_of_maps_to hcard
      (fun n _ => List.mem_toFinset.mpr (hseqmem n))
  rcases Nat.lt_or_ge i j with h | h
  · have := hchain j i h
    rw [← heq] at this
    exact ⟨_, this⟩
  · have hji : j < i := Nat.lt_of_le_of_ne h fun h' => hij h'.symm
    have := hchain i j hji
    rw [heq] at this
    exact ⟨_, this⟩

/-- Completeness of the loop: when every dependency of a remaining node is
either resolved or itself remaining, and the graph is acyclic, the loop
never gets stuck — it produces a stage plan. -/
lemma buildOrderAux_total (g : Graph)
    (hacyc : ∀ v, ¬ Relation.TransGen (Edge g) v v) :
    ∀ (fuel : Nat) (resolved remaining : List String),
      remaining.length ≤ fuel →
      (∀ v ∈ remaining, v ∈ g.nodes) →
      (∀ v ∈ remaining, ∀ d ∈ depsOf g v, d ∈ resolved ∨ d ∈ remaining) →
      ∃ stages, buildOrderAux g fuel resolved remaining = .ok stages := by
  intro fuel
  induction fuel with
  | zero =>
    intro resolved remaining hlen _ _
    have hnil : remaining = [] := List.eq_nil_of_length_eq_zero (Nat.le_zero.mp hlen)
    subst hnil
    exact ⟨[], by rw [buildOrderAux]⟩
  | succ fuel ih =>
    intro resolved remaining hlen hsub hclosed
    cases remaining with
    | nil => exact ⟨[], by rw [buildOrderAux]⟩
    | cons r0 rs =>
      rw [buildOrderAux]
      set p : String → Bool := fun u => (depsOf g u).all fun d => resolved.contains d with hp
      by_cases hre : ((r0 :: rs).filter p).isEmpty
      · exfalso
        have hstuck : ∀ v ∈ r0 :: rs, ∃ d, d ∈ depsOf g v ∧ d ∈ r0 :: rs := by
          intro v hv
          have hnp : ¬ p v = true := by
            intro hpv
            have hmem : v ∈ (r0 :: rs).filter p := List.mem_filter.mpr ⟨hv, hpv⟩
            rw [List.isEmpty_iff] at hre
            rw [hre] at hmem
            simp at hmem
          rw [hp] at hnp
          simp only [List.all_eq_true, not_forall] at hnp
          obtain ⟨d, hd, hnc⟩ := hnp
          refine ⟨d, hd, ?_⟩
          rcases hclosed v hv d hd with h | h
          · exfalso
            apply hnc
            rw [List.contains, List.elem_iff]
            exact h
          · exact h
        obtain ⟨v, hcyc⟩ :=
          exists_cycle_of_stuck g (r0 :: rs) hsub hstuck (by simp)
        exact hacyc v hcyc
      · rw [if_neg hre]
        have hlen' : ((r0 :: rs).filter fun u => !(p u)).length ≤ fuel := by
          have hsplit := length_filter_add_length_filter_neg p (r0 :: rs)
          have hrne : (r0 :: rs).filter p ≠ [] := by
            intro h
            rw [h] at hre
            exact hre rfl
          have h1 : 1 ≤ ((r0 :: rs).filter p).length := by
            cases hready' : (r0 :: rs).filter p with
            | nil => exact absurd hready' hrne
            | cons a as => simp [hready']
          have h2 : (r0 :: rs).length ≤ fuel + 1 := hlen
          omega
        have hsub' : ∀ v ∈ (r0 :: rs).filter fun u => !(p u), v ∈ g.nodes :=
          fun v hv => hsub v (List.mem_filter.mp hv).1
        have hclosed' : ∀ v ∈ (r0 :: rs).filter fun u => !(p u),
            ∀ d ∈ depsOf g v,
              d ∈ resolved ++ (r0 :: rs).filter p ∨
              d ∈ (r0 :: rs).filter fun u => !(p u) := by
          intro v hv d hd
          rcases hclosed v (List.mem_filter.mp hv).1 d hd with h | h
          · exact Or.inl (List.mem_append.mpr (Or.inl h))
          · by_cases hpd : p d = true
            · exact Or.inl (List.mem_append.mpr (Or.inr (List.mem_filter.mpr ⟨h, hpd⟩)))
            · exact Or.inr (List.mem_filter.mpr ⟨h, by simp [hpd]⟩)
        obtain ⟨stages', hst⟩ := ih (resolved ++ (r0 :: rs).filter p)
          ((r0 :: rs).filter fun u => !(p u)) hlen' hsub' hclosed'
        exact ⟨(r0 :: rs).filter p :: stages', by rw [hst]; rfl⟩

/-- For every valid graph — dependencies all declared, no cycle —
`buildOrder` succeeds. -/
lemma buildOrder_total (g : Graph)
    (hclosed : ∀ v ∈ g.nodes, ∀ d ∈ depsOf g v, d ∈ g.nodes)
    (hacyc : ∀ v, ¬ Relation.TransGen (Edge g) v v) :
    ∃ stages, g.buildOrder = .ok stages :=
  buildOrderAux_total g hacyc g.nodes.length [] g.nodes (Nat.le_refl _)
    (fun _ hv => hv) (fun v hv d hd => Or.inr (hclosed v hv d hd))

/-! ### The claims -/

/-- Claim C1: on every valid input (all dependencies declared, no cycle)
`buildOrder` succeeds, and whenever it succeeds each variable's stage
index satisfies `stage(v) = 0` when it has no dependencies and
`stage(v) = 1 + max(stage(d) for d in deps(v))` otherwise; on the
declarations of `TestGraph_BuildOrder`'s complete dependency graph the
stage sequence is `[\x7bf,d\x7d, \x7bc,b,g\x7d, \x7ba,h\x7d, \x7be\x7d]`. -/
theorem buildOrder_stage_recurrence :
    (∀ g : Graph, (∀ v ∈ g.nodes, ∀ d ∈ depsOf g v, d ∈ g.nodes) →
      (∀ v, ¬ Relation.TransGen (Edge g) v v) →
      ∃ stages, g.buildOrder = .ok stages) ∧
    (∀ (g : Graph) (stages : List (List String)), g.buildOrder = .ok stages →
      ∀ v ∈ g.nodes,
        (depsOf g v = [] → stageIndex stages v = 0) ∧
        (depsOf g v ≠ [] →
          stageIndex stages v = 1 + maxNat ((depsOf g v).map (stageIndex stages)))) ∧
    (newGraph ["f", "d", "c", "b", "g", "a", "h", "e"]
      [("e", ["a", "b"]), ("a", ["c", "f", "b"]), ("h", ["b"]), ("g", ["d"]),
       ("c", ["f"]), ("b", ["f"])]).buildOrder =
      .ok [["f", "d"], ["c", "b", "g"], ["a", "h"], ["e"]] := by
  refine ⟨fun g hclosed hacyc => buildOrder_total g hclosed hacyc, ?_, ?_⟩
  · intro g stages hok v hv
    obtain ⟨hlt, hv1, hv0⟩ := stage_level g stages hok v hv
    have hchar := (mem_resolvedUpTo_succ.mp hv1).2
    constructor
    · intro hdeps
      have h1 : v ∈ resolvedUpTo g 1 :=
        mem_resolvedUpTo_succ.mpr ⟨hv, by simp [hdeps]⟩
      have h0 : v ∉ resolvedUpTo g 0 := by simp [resolvedUpTo]
      exact resolvedUpTo_level_unique hv1 hv0 h1 h0
    · intro hdeps
      have hdub : ∀ d ∈ depsOf g v, stageIndex stages d < stageIndex stages v :=
        fun d hd => stage_edge g stages hok v hv d hd
      have hipos : 1 ≤ stageIndex stages v := by
        by_contra hcon
        push_neg at hcon
        have h0 : stageIndex stages v = 0 := by omega
        obtain ⟨d, hd⟩ := List.exists_mem_of_ne_nil _ hdeps
        have hdR := hchar d hd
        rw [h0] at hdR
        simp [resolvedUpTo] at hdR
      have hMle : maxNat ((depsOf g v).map (stageIndex stages)) ≤ stageIndex stages v - 1 := by
        apply maxNat_le
        intro x hx
        obtain ⟨d, hd, rfl⟩ := List.mem_map.mp hx
        have := hdub d hd
        omega
      have hige : stageIndex stages v ≤ maxNat ((depsOf g v).map (stageIndex stages)) + 1 := by
        have hsub : ∀ d ∈ depsOf g v,
            d ∈ resolvedUpTo g (maxNat ((depsOf g v).map (stageIndex stages)) + 1) := by
          intro d hd
          have hdn : d ∈ g.nodes := resolvedUpTo_subset (hchar d hd)
          obtain ⟨_, hd1, _⟩ := stage_level g stages hok d hdn
          refine resolvedUpTo_mono g ?_ d hd1
          have : stageIndex stages d ≤ maxNat ((depsOf g v).map (stageIndex stages)) :=
            le_maxNat (List.mem_map_of_mem _ hd)
          omega
        have hvM : v ∈ resolvedUpTo g
            (maxNat ((depsOf g v).map (stageIndex stages)) + 1 + 1) :=
          mem_resolvedUpTo_succ.mpr ⟨hv, hsub⟩
        by_contra hcon
        push_neg at hcon
        exact hv0 (resolvedUpTo_mono g (by omega) v hvM)
      omega
  · rfl

/-- Witness for C1: on the complete dependency graph of the tests,
`e` (whose dependencies are `a` and `b`) indeed sits at stage
`1 + max(stage(a), stage(b)) = 3`. -/
theorem buildOrder_stage_recurrence_witness :
    stageIndex [["f", "d"], ["c", "b", "g"], ["a", "h"], ["e"]] "e" =
      1 + maxNat ((depsOf (newGraph ["f", "d", "c", "b", "g", "a", "h", "e"]
        [("e", ["a", "b"]), ("a", ["c", "f", "b"]), ("h", ["b"]), ("g", ["d"]),
         ("c", ["f"]), ("b", ["f"])]) "e").map
          (stageIndex [["f", "d"], ["c", "b", "g"], ["a", "h"], ["e"]])) :=
  ((buildOrder_stage_recurrence.2.1 _ _ buildOrder_stage_recurrence.2.2 "e"
    (by decide)).2 (by decide))

/-- Claim C2: whenever `buildOrder` succeeds, the stage sequence is a
partition of the declared names (every declared name is in exactly one
stage and every staged name is declared), and every edge `v → d` has
`stage(d) < stage(v)`. -/
theorem buildOrder_partition_and_edge_order :
    ∀ (g : Graph) (stages : List (List String)), g.buildOrder = .ok stages →
      (∀ v ∈ g.nodes, ∃ k, k < stages.length ∧ v ∈ stages.getD k [] ∧
        ∀ j, j < stages.length → v ∈ stages.getD j [] → j = k) ∧
      (∀ s ∈ stages, ∀ v ∈ s, v ∈ g.nodes) ∧
      (∀ v ∈ g.nodes, ∀ d ∈ depsOf g v, stageIndex stages d < stageIndex stages v) := by
  intro g stages hok
  obtain ⟨h1, h2⟩ := buildOrder_spec g stages hok
  refine ⟨?_, ?_, ?_⟩
  · intro v hv
    obtain ⟨k, hk, hmem⟩ := h2 v hv
    refine ⟨k, hk, hmem, ?_⟩
    intro j hj hmemj
    have hkchar := (h1 k hk v).mp hmem
    have hjchar := (h1 j hj v).mp hmemj
    exact resolvedUpTo_level_unique hjchar.1 hjchar.2 hkchar.1 hkchar.2
  · intro s hs v hv
    obtain ⟨k, hk, hsk⟩ := List.mem_iff_getElem.mp hs
    have hgd : stages.getD k [] = s := by
      rw [List.getD_eq_getElem?_getD, List.getElem?_eq_getElem hk, hsk]
      rfl
    have := (h1 k hk v).mp (by rw [hgd]; exact hv)
    exact resolvedUpTo_subset this.1
  · intro v hv d hd
    exact stage_edge g stages hok v hv d hd

/-- Witness for C2: on the complete dependency graph of the tests, the
name `b` is staged exactly once and its dependency `f` is staged strictly
earlier. -/
theorem buildOrder_partition_and_edge_order_witness :
    (∃ k, k < 4 ∧ "b" ∈ [["f", "d"], ["c", "b", "g"], ["a", "h"], ["e"]].getD k [] ∧
      ∀ j, j < 4 → "b" ∈ [["f", "d"], ["c", "b", "g"], ["a", "h"], ["e"]].getD j [] → j = k) ∧
    stageIndex [["f", "d"], ["c", "b", "g"], ["a", "h"], ["e"]] "f" <
      stageIndex [["f", "d"], ["c", "b", "g"], ["a", "h"], ["e"]] "b" := by
  have h := buildOrder_partition_and_edge_order
    (newGraph ["f", "d", "c", "b", "g", "a", "h", "e"]
      [("e", ["a", "b"]), ("a", ["c", "f", "b"]), ("h", ["b"]), ("g", ["d"]),
       ("c", ["f"]), ("b", ["f"])])
    [["f", "d"], ["c", "b", "g"], ["a", "h"], ["e"]] rfl
  exact ⟨h.1 "b" (by decide), h.2.2 "b" (by decide) "f" (by decide)⟩

/-- Claim C3: whenever the dependency graph contains a cycle through a
declared node (which covers a 1-node self-cycle, a 2-node cycle, and a
cycle reached transitively through an otherwise valid subgraph),
`buildOrder` fails with the single categorical circular-dependency error,
so no stage plan is returned. -/
theorem buildOrder_cycle_error :
    ∀ (g : Graph) (v : String), Relation.TransGen (Edge g) v v →
      g.buildOrder = .error .circularDependency := by
  intro g v hcyc
  cases hbo : g.buildOrder with
  | ok stages =>
    exact absurd (transGen_stage_lt g stages hbo v v hcyc) (Nat.lt_irrefl _)
  | error e =>
    have he : e = BuildError.circularDependency := buildOrderAux_error g _ _ _ e hbo
    rw [he]

/-- Witness for C3: the self-cycle `a → a` of
`TestGraph_BuildOrderError` makes `buildOrder` fail with the
circular-dependency error. -/
theorem buildOrder_cycle_error_witness :
    (newGraph ["a"] [("a", ["a"])]).buildOrder = .error .circularDependency :=
  buildOrder_cycle_error _ "a" (Relation.TransGen.single ⟨by decide, by decide⟩)

/-- Claim C8: an input with zero declared variables yields an empty stage
list and no error — at the graph level for any dependency mapping and for
the end-to-end `BuildVariableOrder` — and a single variable with no
dependencies yields exactly one stage containing it. -/
theorem buildOrder_zero_and_single :
    (∀ dependencies, (newGraph [] dependencies).buildOrder = .ok []) ∧
    BuildVariableOrder [] = .ok [] ∧
    (∀ name : String, (newGraph [name] []).buildOrder = .ok [[name]]) := by
  refine ⟨fun dependencies => rfl, rfl, fun name => ?_⟩
  exact buildOrder_no_deps (newGraph [name] []) (by simp [newGraph]) (fun v _ => rfl)

/-- Counterexample to C9 as stated: the empty input vacuously has no
reference edges, yet `buildOrder` yields zero stages, not exactly one. -/
theorem buildOrder_all_leaves_empty_counterexample :
    (newGraph [] []).buildOrder = .ok [] ∧ ([] : List (List String)).length ≠ 1 :=
  ⟨rfl, by decide⟩

/-- Claim C9 (amended to non-empty inputs): for every input with at least
one declared variable in which every variable's reference set is empty,
`buildOrder` returns exactly one stage, containing every declared
variable. -/
theorem buildOrder_all_leaves_single_stage :
    ∀ g : Graph, g.nodes ≠ [] → (∀ v ∈ g.nodes, depsOf g v = []) →
      g.buildOrder = .ok [g.nodes] :=
  fun g hne hdeps => buildOrder_no_deps g hne hdeps

/-- Witness for C9: the `independent variable` test input `a, d, e` with
no dependency mapping yields the single stage `[a, d, e]`. -/
theorem buildOrder_all_leaves_single_stage_witness :
    (newGraph ["a", "d", "e"] []).buildOrder = .ok [["a", "d", "e"]] :=
  buildOrder_all_leaves_single_stage _ (by simp [newGraph]) (fun v _ => rfl)

/-! ### Extractor lemmas -/

lemma mem_dedupAux {x : String} : ∀ (l seen : List String),
    x ∈ dedupAux seen l ↔ (x ∈ l ∧ x ∉ seen) := by
  intro l
  induction l with
  | nil => intro seen; simp [dedupAux]
  | cons y ys ih =>
    intro seen
    rw [dedupAux]
    by_cases hy : seen.contains y
    · rw [if_pos hy]
      rw [ih seen]
      constructor
      · rintro ⟨h1, h2⟩
        exact ⟨List.mem_cons_of_mem _ h1, h2⟩
      · rintro ⟨h1, h2⟩
        rcases List.mem_cons.mp h1 with rfl | h1'
        · exact absurd (by rw [List.contains, List.elem_iff] at hy; exact hy) h2
        · exact ⟨h1', h2⟩
    · rw [if_neg hy]
      constructor
      · intro h
        rcases List.mem_cons.mp h with rfl | h'
        · refine ⟨List.mem_cons_self _ _, fun hs => hy ?_⟩
          rw [List.contains, List.elem_iff]
          exact hs
        · have h'' := (ih (y :: seen)).mp h'
          exact ⟨List.mem_cons_of_mem _ h''.1,
            fun hs => h''.2 (List.mem_cons_of_mem _ hs)⟩
      · rintro ⟨h1, h2⟩
        by_cases hxy : x = y
        · subst hxy
          exact List.mem_cons_self _ _
        · rcases List.mem_cons.mp h1 with rfl | h1'
          · exact absurd rfl hxy
          · exact List.mem_cons_of_mem _
              ((ih (y :: seen)).mpr
                ⟨h1', fun hs => (List.mem_cons.mp hs).elim hxy h2⟩)

lemma nodup_dedupAux : ∀ (l seen : List String), (dedupAux seen l).Nodup := by
  intro l
  induction l with
  | nil => intro seen; simp [dedupAux]
  | cons y ys ih =>
    intro seen
    rw [dedupAux]
    by_cases hy : seen.contains y
    · rw [if_pos hy]; exact ih seen
    · rw [if_neg hy]
      refine List.nodup_cons.mpr ⟨fun hmem => ?_, ih (y :: seen)⟩
      exact ((mem_dedupAux ys (y :: seen)).mp hmem).2 (List.mem_cons_self _ _)

/-- Membership in the extracted reference set: exactly the non-numeric
tokens found by scanning some string leaf of the payload. -/
lemma mem_extractReferences {p : JsonValue} {r : String} :
    r ∈ extractReferences p ↔
      ((∃ s ∈ collectStrings p, r ∈ scanString s) ∧ isAllDigits r = false) := by
  rw [extractReferences, dedupFirst, mem_dedupAux]
  simp only [List.not_mem_nil, not_false_iff, and_true, List.mem_filter,
    List.mem_flatMap, Bool.not_eq_true']

/-! ### Extractor claims -/

/-- Claim C5: a captured token consisting solely of digits is discarded by
the numeric filter and never appears in any reference set; in particular
`$1` and the delimited `$\x7b42\x7d` extract nothing. -/
theorem numeric_tokens_never_references :
    (∀ (p : JsonValue) (r : String), r ∈ extractReferences p → isAllDigits r = false) ∧
    extractReferences (.str "$1 $\x7b42\x7d") = [] := by
  refine ⟨fun p r h => (mem_extractReferences.mp h).2, rfl⟩

/-- Witness for C5: `foo` is extracted from `$foo $1` (so the extractor
did run) and is not all-digits. -/
theorem numeric_tokens_never_references_witness :
    isAllDigits "foo" = false :=
  numeric_tokens_never_references.1 (.str "$foo $1") "foo" (by decide)

/-- Claim C7: a computed variable's reference set is exactly the set of
distinct non-numeric `$name` / `$\x7bname\x7d` tokens found by recursively
scanning every string leaf of its payload (nested sequences and mappings
included), with duplicate occurrences collapsed (the result is
duplicate-free); on the `multiple usage of the same variable` test
expression the duplicated `$bar` yields a single occurrence, and a token
nested inside a sequence inside a mapping is found. -/
theorem extracted_references_spec :
    (∀ (p : JsonValue) (r : String),
      r ∈ extractReferences p ↔
        ((∃ s ∈ collectStrings p, r ∈ scanString s) ∧ isAllDigits r = false)) ∧
    (∀ p : JsonValue, (extractReferences p).Nodup) ∧
    extractReferences
      (.obj [("expr", .str "sum by($doe, $bar) (rate($foo) and $bar)")]) =
      ["doe", "bar", "foo"] ∧
    extractReferences
      (.obj [("label_name", .str "$foo"),
             ("matchers", .arr [.str "$foo and $\x7bbar\x7d"])]) =
      ["foo", "bar"] := by
  refine ⟨fun p r => mem_extractReferences, fun p => nodup_dedupAux _ _, rfl, rfl⟩

/-- Witness for C7: the membership characterization instantiated at the
duplicated-token payload and the name `bar`. -/
theorem extracted_references_spec_witness :
    "bar" ∈ extractReferences (.str "sum by($doe, $bar) (rate($foo) and $bar)") ↔
      ((∃ s ∈ collectStrings (.str "sum by($doe, $bar) (rate($foo) and $bar)"),
        "bar" ∈ scanString s) ∧ isAllDigits "bar" = false) :=
  extracted_references_spec.1 _ "bar"

/-! ### Dependency-construction lemmas -/

/-- If some declaration's reference set holds an undeclared name, the
per-declaration loop stops with an undefined-reference error naming a
genuine offending pair. -/
lemma depsLoop_undefined (declared : List String) :
    ∀ l : List Variable, (∃ v ∈ l, ∃ r ∈ refsOf v, r ∉ declared) →
      ∃ missing referrer, depsLoop declared l = .error (.undefinedReference missing referrer) ∧
        (∃ v ∈ l, v.name = referrer ∧ missing ∈ refsOf v) ∧ missing ∉ declared := by
  intro l
  induction l with
  | nil => rintro ⟨v, hv, -⟩; simp at hv
  | cons v rest ih =>
    intro hex
    cases hf : (refsOf v).find? fun r => !(declared.contains r) with
    | some r =>
      refine ⟨r, v.name, by rw [depsLoop, hf], ⟨v, List.mem_cons_self _ _, rfl,
        List.mem_of_find?_eq_some hf⟩, ?_⟩
      have hc : declared.contains r = false := by simpa using List.find?_some hf
      intro hmem
      have hc' : declared.contains r = true := by
        rw [List.contains, List.elem_iff]; exact hmem
      rw [hc] at hc'
      cases hc'
    | none =>
      have hall : ∀ r ∈ refsOf v, r ∈ declared := by
        intro r hr
        have hc : declared.contains r = true := by
          simpa using List.find?_eq_none.mp hf r hr
        rw [List.contains, List.elem_iff] at hc
        exact hc
      have hrest : ∃ v' ∈ rest, ∃ r ∈ refsOf v', r ∉ declared := by
        obtain ⟨v', hv', r, hr, hnd⟩ := hex
        rcases List.mem_cons.mp hv' with rfl | hv''
        · exact absurd (hall r hr) hnd
        · exact ⟨v', hv'', r, hr, hnd⟩
      obtain ⟨missing, referrer, herr, ⟨v', hv', hname, hmem⟩, hnd⟩ := ih hrest
      refine ⟨missing, referrer, ?_, ⟨v', List.mem_cons_of_mem _ hv', hname, hmem⟩, hnd⟩
      rw [depsLoop, hf]
      by_cases he : (refsOf v).isEmpty
      · rw [if_pos he]; exact herr
      · rw [if_neg he, herr]; rfl

/-- Every entry of a successful dependency mapping is the name and
non-empty reference set of some processed declaration. -/
lemma depsLoop_ok_entries (declared : List String) :
    ∀ (l : List Variable) (m : List (String × List String)), depsLoop declared l = .ok m →
      ∀ pr ∈ m, ∃ v ∈ l, pr.1 = v.name ∧ pr.2 = refsOf v ∧ refsOf v ≠ [] := by
  intro l
  induction l with
  | nil =>
    intro m hok pr hpr
    rw [depsLoop] at hok
    cases hok
    simp at hpr
  | cons v rest ih =>
    intro m hok pr hpr
    rw [depsLoop] at hok
    cases hf : (refsOf v).find? fun r => !(declared.contains r) with
    | some r => rw [hf] at hok; cases hok
    | none =>
      rw [hf] at hok
      by_cases he : (refsOf v).isEmpty
      · rw [if_pos he] at hok
        obtain ⟨v', hv', h⟩ := ih m hok pr hpr
        exact ⟨v', List.mem_cons_of_mem _ hv', h⟩
      · rw [if_neg he] at hok
        cases hrec : depsLoop declared rest with
        | error e => rw [hrec] at hok; cases hok
        | ok m' =>
          rw [hrec] at hok
          simp only [Except.map_ok, Except.ok.injEq] at hok
          subst hok
          rcases List.mem_cons.mp hpr with rfl | hpr'
          · refine ⟨v, List.mem_cons_self _ _, rfl, rfl, fun hnil => he ?_⟩
            rw [hnil]; rfl
          · obtain ⟨v', hv', h⟩ := ih m' hrec pr hpr'
            exact ⟨v', List.mem_cons_of_mem _ hv', h⟩

/-- A successful dependency mapping has exactly one entry per declaration
with a non-empty reference set. -/
lemma depsLoop_ok_length (declared : List String) :
    ∀ (l : List Variable) (m : List (String × List String)), depsLoop declared l = .ok m →
      m.length = (l.filter fun v => !(refsOf v).isEmpty).length := by
  intro l
  induction l with
  | nil =>
    intro m hok
    rw [depsLoop] at hok
    cases hok
    rfl
  | cons v rest ih =>
    intro m hok
    rw [depsLoop] at hok
    cases hf : (refsOf v).find? fun r => !(declared.contains r) with
    | some r => rw [hf] at hok; cases hok
    | none =>
      rw [hf] at hok
      by_cases he : (refsOf v).isEmpty
      · rw [if_pos he] at hok
        rw [List.filter_cons, he]
        simpa using ih m hok
      · rw [if_neg he] at hok
        cases hrec : depsLoop declared rest with
        | error e => rw [hrec] at hok; cases hok
        | ok m' =>
          rw [hrec] at hok
          simp only [Except.map_ok, Except.ok.injEq] at hok
          subst hok
          rw [List.filter_cons, Bool.eq_false_iff.mpr he]
          simpa using ih m' hrec

/-- Declarations with empty reference sets leave no trace in a successful
mapping (under unique declared names). -/
lemma buildVariableDependencies_absent (vars : List Variable)
    (m : List (String × List String)) (hok : buildVariableDependencies vars = .ok m)
    (hnd : (vars.map fun v => v.name).Nodup) (v : Variable) (hv : v ∈ vars)
    (hrefs : refsOf v = []) : ∀ pr ∈ m, pr.1 ≠ v.name := by
  intro pr hpr heq
  obtain ⟨v', hv', hname, _, hne⟩ := depsLoop_ok_entries _ vars m hok pr hpr
  have hvv : v' = v :=
    List.inj_on_of_nodup_map hnd hv' hv (by rw [← hname, heq])
  rw [hvv, hrefs] at hne
  exact hne rfl

/-- The construction loop only inspects a declaration's payload through
`refsOf`; a non-computed declaration's payload can be replaced freely. -/
lemma depsLoop_constant_payload (declared : List String) (v : Variable)
    (p : JsonValue) (hk : v.kind ≠ .computed) :
    ∀ (pre post : List Variable),
      depsLoop declared (pre ++ { v with spec := p } :: post) =
        depsLoop declared (pre ++ v :: post) := by
  have hkc : v.kind = .constant := by
    cases hvk : v.kind
    · rfl
    · exact absurd hvk hk
  have hr : refsOf { v with spec := p } = refsOf v := by
    rw [refsOf, refsOf, hkc]
  intro pre
  induction pre with
  | nil =>
    intro post
    rw [List.nil_append, List.nil_append, depsLoop, depsLoop, hr]
  | cons w pres ih =>
    intro post
    rw [List.cons_append, List.cons_append, depsLoop, depsLoop, ih post]

/-- Claim C4: whenever some declaration's reference set holds a name with
no matching declaration, dependency construction fails with an
undefined-reference error reporting a genuine (missing name, referencing
variable) pair, and no partial mapping is returned. -/
theorem undefined_reference_error :
    ∀ vars : List Variable, (∃ v ∈ vars, ∃ r ∈ refsOf v, r ∉ vars.map fun v => v.name) →
      ∃ missing referrer,
        buildVariableDependencies vars = .error (.undefinedReference missing referrer) ∧
        (∃ v ∈ vars, v.name = referrer ∧ missing ∈ refsOf v) ∧
        missing ∉ vars.map fun v => v.name :=
  fun vars hex => depsLoop_undefined _ vars hex

/-- Witness for C4: the `variable used but not defined` test input — a
lone `myVariable` referencing `doe`, `bar` and `foo` — fails with an
undefined-reference error naming a missing variable and `myVariable`. -/
theorem undefined_reference_error_witness :
    ∃ missing referrer,
      buildVariableDependencies
        [⟨"myVariable", .computed, .obj [("expr", .str "sum by($doe, $bar) (rate($foo) and $bar)")]⟩] =
        .error (.undefinedReference missing referrer) ∧
      (∃ v ∈ [(⟨"myVariable", .computed, .obj [("expr", .str "sum by($doe, $bar) (rate($foo) and $bar)")]⟩ : Variable)],
        v.name = referrer ∧ missing ∈ refsOf v) ∧
      missing ∉ [(⟨"myVariable", .computed, .obj [("expr", .str "sum by($doe, $bar) (rate($foo) and $bar)")]⟩ : Variable)].map fun v => v.name :=
  undefined_reference_error _
    ⟨⟨"myVariable", .computed, .obj [("expr", .str "sum by($doe, $bar) (rate($foo) and $bar)")]⟩,
      List.mem_cons_self _ _, "doe", by decide, by decide⟩

/-- Claim C6: a declaration whose kind is not computed contributes an
empty reference set no matter what its payload holds — its payload is
never scanned (replacing it cannot change the result), and under unique
declared names it leaves no entry in the mapping. -/
theorem constant_variables_never_scanned :
    (∀ (pre post : List Variable) (v : Variable) (p : JsonValue), v.kind ≠ .computed →
      buildVariableDependencies (pre ++ { v with spec := p } :: post) =
        buildVariableDependencies (pre ++ v :: post)) ∧
    (∀ (vars : List Variable) (m : List (String × List String)) (v : Variable),
      buildVariableDependencies vars = .ok m → (vars.map fun v => v.name).Nodup →
      v ∈ vars → v.kind ≠ .computed → ∀ pr ∈ m, pr.1 ≠ v.name) := by
  constructor
  · intro pre post v p hk
    have hnames : (pre ++ { v with spec := p } :: post).map (fun v => v.name) =
        (pre ++ v :: post).map (fun v => v.name) := by
      simp
    rw [buildVariableDependencies, buildVariableDependencies, hnames]
    exact depsLoop_constant_payload _ v p hk pre post
  · intro vars m v hok hnd hv hk
    have hkc : v.kind = .constant := by
      cases h : v.kind
      · rfl
      · exact absurd h hk
    exact buildVariableDependencies_absent vars m hok hnd v hv (by simp [refsOf, hkc])

/-- Witness for C6: a constant variable's payload may even hold
reference-looking garbage; the result is the same as for a harmless
payload (and no undefined-reference error fires). -/
theorem constant_variables_never_scanned_witness :
    buildVariableDependencies
      [{ name := "doe", kind := .constant, spec := .str "$undefined and $busted" }] =
    buildVariableDependencies
      [{ name := "doe", kind := .constant, spec := .str "myConstant" }] :=
  constant_variables_never_scanned.1 [] []
    ⟨"doe", .constant, .str "myConstant"⟩ (.str "$undefined and $busted") (by decide)

/-- Claim C10: a successful dependency mapping has entries exactly for the
declarations with a non-empty reference set: every recorded set is
non-empty, a declaration with an empty reference set (constant variables
included) is absent rather than mapped to an empty set, and the mapping's
size is the number of declarations with at least one dependency. -/
theorem dependency_mapping_only_nonempty :
    ∀ (vars : List Variable) (m : List (String × List String)),
      buildVariableDependencies vars = .ok m →
      (∀ pr ∈ m, pr.2 ≠ []) ∧
      ((vars.map fun v => v.name).Nodup →
        ∀ v ∈ vars, refsOf v = [] → ∀ pr ∈ m, pr.1 ≠ v.name) ∧
      m.length = (vars.filter fun v => !(refsOf v).isEmpty).length := by
  intro vars m hok
  refine ⟨?_, ?_, depsLoop_ok_length _ vars m hok⟩
  · intro pr hpr
    obtain ⟨v', _, _, h2, hne⟩ := depsLoop_ok_entries _ vars m hok pr hpr
    rw [h2]
    exact hne
  · intro hnd v hv hrefs
    exact buildVariableDependencies_absent vars m hok hnd v hv hrefs

/-- Witness for C10: on the `query variable with variable used` test input
(four declarations, two of them with dependencies), the mapping's size is
exactly the number of declarations with a non-empty reference set. -/
theorem dependency_mapping_only_nonempty_witness :
    ([("myVariable", ["doe", "foo", "bar"]), ("bar", ["foo"])] : List (String × List String)).length =
      ([⟨"myVariable", .computed, .obj [("expr", .str "sum by($doe) (rate($foo) and $bar)")]⟩,
        ⟨"foo", .computed, .obj [("expr", .str "test")]⟩,
        ⟨"bar", .computed, .obj [("expr", .str "vector($foo)")]⟩,
        ⟨"doe", .constant, .obj [("value", .str "myConstant")]⟩].filter
          fun v => !(refsOf v).isEmpty).length :=
  (dependency_mapping_only_nonempty
    [⟨"myVariable", .computed, .obj [("expr", .str "sum by($doe) (rate($foo) and $bar)")]⟩,
     ⟨"foo", .computed, .obj [("expr", .str "test")]⟩,
     ⟨"bar", .computed, .obj [("expr", .str "vector($foo)")]⟩,
     ⟨"doe", .constant, .obj [("value", .str "myConstant")]⟩]
    [("myVariable", ["doe", "foo", "bar"]), ("bar", ["foo"])] rfl).2.2

end Perses
